import Mathlib

/-!
# Verification of `bspatch.js` (streaming BSDIFF patch application)

Shallow embedding of `src/bspatch.js` in Lean 4, with theorems settling the
frozen claims about the program.

Modelling conventions:
* A byte is a `Nat` (values produced by the program are `< 256`); byte
  sequences are `List Nat`.
* JavaScript bitwise operators work on 32-bit two's-complement integers
  (`ToInt32`), with shift counts taken modulo 32.  These semantics are
  embedded explicitly (`toInt32`, `jsShl`, `jsAnd`, `jsOr`, `jsShr`) because
  `getInt64` and `readBits` in the source rely on them.
* Fallible code returns `Except String α`, carrying the thrown message
  (`"Corrupt patch"` / `"Unexpected EOF"`).
-/

set_option linter.unusedVariables false

namespace Bspatch

/-! ## JavaScript 32-bit integer semantics -/

/-- Model of `ToInt32`: reduce an integer to the range `[-2^31, 2^31)` modulo `2^32`,
the value JavaScript bitwise operators produce. -/
def toInt32 (n : Int) : Int := (n + 2 ^ 31) % 2 ^ 32 - 2 ^ 31

/-- The unsigned 32-bit pattern of an integer (`ToUint32`). -/
def toUInt32 (n : Int) : Nat := (n % 2 ^ 32).toNat

/-- JavaScript `a << s`: shift count modulo 32, result as int32. -/
def jsShl (a : Int) (s : Nat) : Int := toInt32 (a * 2 ^ (s % 32))

/-- JavaScript `a & b` on int32 bit patterns. -/
def jsAnd (a b : Int) : Int := toInt32 (Nat.land (toUInt32 a) (toUInt32 b))

/-- JavaScript `a | b` on int32 bit patterns. -/
def jsOr (a b : Int) : Int := toInt32 (Nat.lor (toUInt32 a) (toUInt32 b))

/-- JavaScript `a >> s` (sign-propagating): arithmetic shift = floor
division of the int32 value by `2^(s % 32)`. -/
def jsShr (a : Int) (s : Nat) : Int := Int.fdiv (toInt32 a) (2 ^ (s % 32))

/-! ## `getInt64` as the source computes it

```js
const result =
  (bytes[offset + 0] & 0xff) << (0 * 8) |
  ... |
  (bytes[offset + 6] & 0xff) << (6 * 8) |
  (bytes[offset + 7] & 0x7f) << (7 * 8);
const signed = bytes[offset + 7] & 0x80 != 0;
return signed ? -result : result;
```

Two JavaScript facts are embedded here rather than simplified away:
* every `<<` and `|` is an int32 operation with the shift count reduced
  modulo 32, so `<< 32` is `<< 0`, `<< 40` is `<< 8`, ..., `<< 56` is `<< 24`;
* `!=` binds tighter than `&`, so `bytes[offset + 7] & 0x80 != 0` evaluates
  as `bytes[offset + 7] & (0x80 != 0)`, i.e. `bytes[offset + 7] & 1`
  (`true` coerces to `1`), and `signed` is truthy exactly when the low bit
  of the 8th byte is set. -/
def getInt64 (bytes : List Nat) (offset : Nat) : Int :=
  let b (i : Nat) : Int := (bytes.getD (offset + i) 0 : Int)
  let result :=
    jsOr (jsOr (jsOr (jsOr (jsOr (jsOr (jsOr
      (jsShl (jsAnd (b 0) 0xff) (0 * 8))
      (jsShl (jsAnd (b 1) 0xff) (1 * 8)))
      (jsShl (jsAnd (b 2) 0xff) (2 * 8)))
      (jsShl (jsAnd (b 3) 0xff) (3 * 8)))
      (jsShl (jsAnd (b 4) 0xff) (4 * 8)))
      (jsShl (jsAnd (b 5) 0xff) (5 * 8)))
      (jsShl (jsAnd (b 6) 0xff) (6 * 8)))
      (jsShl (jsAnd (b 7) 0x7f) (7 * 8))
  let signed := jsAnd (b 7) 1
  if signed ≠ 0 then -result else result

/-- The BSDIFF wire convention for signed 64-bit integers, written from the
spec's words (little-endian magnitude over the first 7 bytes plus the low
7 bits of the 8th byte, negated exactly when bit `0x80` of the 8th byte is
set).  This is the reference decoding `getInt64` is claimed to implement. -/
def getInt64Spec (bytes : List Nat) (offset : Nat) : Int :=
  let b (i : Nat) : Nat := bytes.getD (offset + i) 0
  let magnitude : Int :=
    (b 0 : Int) + (b 1 : Int) * 2 ^ 8 + (b 2 : Int) * 2 ^ 16 +
    (b 3 : Int) * 2 ^ 24 + (b 4 : Int) * 2 ^ 32 + (b 5 : Int) * 2 ^ 40 +
    (b 6 : Int) * 2 ^ 48 + (b 7 % 128 : Nat) * 2 ^ 56
  if b 7 ≥ 128 then -magnitude else magnitude

/-! ## Exact reads over a byte stream

`read(streamReader, buffer, offset, end)` in the source keeps pulling from
the reader until the requested range is filled, and throws
`'Unexpected EOF'` if the reader reports completion first.  Over a byte
sequence this is: take exactly `n` bytes or fail. -/
def readExact (stream : List Nat) (n : Nat) : Except String (List Nat × List Nat) :=
  if stream.length < n then .error "Unexpected EOF"
  else .ok (stream.take n, stream.drop n)

/-! ## Header parsing (`readHeader` and the entry check of `bspatch`) -/

/-- The char codes of `"BSDIFF40"` (`getAsciiString` builds the magic string
from the first 8 bytes; for ASCII data, string equality is byte equality). -/
def MAGIC : List Nat := [0x42, 0x53, 0x44, 0x49, 0x46, 0x46, 0x34, 0x30]

structure Header where
  magic : List Nat
  controlSize : Int
  diffSize : Int
  newSize : Int
deriving DecidableEq

/-- Model of `readHeader`: read exactly 32 bytes, decode the magic and the three
sign-magnitude fields at offsets 8, 16, 24. -/
def readHeader (patch : List Nat) : Except String (Header × List Nat) :=
  match readExact patch 32 with
  | .error e => .error e
  | .ok (data, rest) =>
    .ok ({ magic := data.take 8
           controlSize := getInt64 data (1 * 8)
           diffSize := getInt64 data (2 * 8)
           newSize := getInt64 data (3 * 8) }, rest)

/-- The header validation at the top of `bspatch`:
`if (magic != MAGIC || controlSize < 0 || diffSize < 0 || newSize < 0)
   throw new Error('Corrupt patch')`. -/
def checkHeader (patch : List Nat) : Except String (Header × List Nat) :=
  match readHeader patch with
  | .error e => .error e
  | .ok (h, rest) =>
    if h.magic ≠ MAGIC ∨ h.controlSize < 0 ∨ h.diffSize < 0 ∨ h.newSize < 0 then
      .error "Corrupt patch"
    else .ok (h, rest)

/-! ## The patch-application loop of `bspatch`

A control record is the decoded 24-byte record (`readControlHeader`). -/

structure ControlRecord where
  addSize : Int
  copySize : Int
  seekSize : Int
deriving DecidableEq

/-- The mutable stream/cursor state of the `bspatch` loop.  The byte lists
are what remains unread of the old source, the decompressed diff stream and
the decompressed extra stream. -/
structure PatchState where
  oldS : List Nat
  diffS : List Nat
  extraS : List Nat
  newPos : Int
  oldPos : Int
deriving DecidableEq

/-- Model of `add(left, right, 0, n)` on `Uint8Array`s: byte-wise sum, each element
stored modulo 256. -/
def addBytes (l r : List Nat) : List Nat :=
  List.zipWith (fun a b => (a + b) % 256) l r

/-- The add phase of one control record, in bounded chunks of `B` bytes
(`BUFFER_SIZE` is 4096 in the source; the loop is infinite for `B = 0`, so
the embedding requires `0 < B`):
`for (i = 0; i < addSize; i += B) read old and diff chunks, sum, emit`.
Returns the emitted chunks and the remaining old and diff streams. -/
def addPhase (B : Nat) (hB : 0 < B) (remaining : Nat) (oldS diffS : List Nat) :
    Except String (List (List Nat) × List Nat × List Nat) :=
  if h : remaining = 0 then .ok ([], oldS, diffS)
  else
    let readAmount := min B remaining
    match readExact oldS readAmount, readExact diffS readAmount with
    | .ok (o1, oldRest), .ok (d1, diffRest) =>
      (match addPhase B hB (remaining - readAmount) oldRest diffRest with
       | .ok (chunks, o, d) => .ok (addBytes o1 d1 :: chunks, o, d)
       | .error e => .error e)
    | .error e, _ => .error e
    | _, .error e => .error e
termination_by remaining
decreasing_by omega

/-- The copy phase: `for (i = 0; i < copySize; i += B) read extra chunk,
emit it unchanged`. -/
def copyPhase (B : Nat) (hB : 0 < B) (remaining : Nat) (extraS : List Nat) :
    Except String (List (List Nat) × List Nat) :=
  if h : remaining = 0 then .ok ([], extraS)
  else
    let readAmount := min B remaining
    match readExact extraS readAmount with
    | .ok (e1, extraRest) =>
      (match copyPhase B hB (remaining - readAmount) extraRest with
       | .ok (chunks, ex) => .ok (e1 :: chunks, ex)
       | .error e => .error e)
    | .error e => .error e
termination_by remaining
decreasing_by omega

/-- The seek phase: `for (i = 0; i < seekSize; i += B) read an old chunk
and discard it` (seeking is realized by reading). -/
def seekPhase (B : Nat) (hB : 0 < B) (remaining : Nat) (oldS : List Nat) :
    Except String (List Nat) :=
  if h : remaining = 0 then .ok oldS
  else
    let readAmount := min B remaining
    match readExact oldS readAmount with
    | .ok (o1, oldRest) => seekPhase B hB (remaining - readAmount) oldRest
    | .error e => .error e
termination_by remaining
decreasing_by omega

/-- The `while (newPos < newSize)` loop of `bspatch`, one iteration per
control record: validate and run the add phase, validate and run the copy
phase, validate `seekSize` and run the seek phase.  Returns the emitted
chunks, the unconsumed control records, and the final stream state. -/
def bspatchLoop (B : Nat) (hB : 0 < B) (newSize : Int)
    (controls : List ControlRecord) (s : PatchState) :
    Except String (List (List Nat) × List ControlRecord × PatchState) :=
  if s.newPos < newSize then
    match controls with
    | [] => .error "Unexpected EOF"
    | c :: rest =>
      if s.newPos + c.addSize > newSize ∨ c.addSize < 0 then .error "Corrupt patch"
      else
        match addPhase B hB c.addSize.toNat s.oldS s.diffS with
        | .error e => .error e
        | .ok (addChunks, oldS1, diffS1) =>
          if s.newPos + c.addSize + c.copySize > newSize ∨ c.copySize < 0 then
            .error "Corrupt patch"
          else
            match copyPhase B hB c.copySize.toNat s.extraS with
            | .error e => .error e
            | .ok (copyChunks, extraS1) =>
              if c.seekSize < 0 then .error "Corrupt patch"
              else
                match seekPhase B hB c.seekSize.toNat oldS1 with
                | .error e => .error e
                | .ok oldS2 =>
                  match bspatchLoop B hB newSize rest
                      { oldS := oldS2, diffS := diffS1, extraS := extraS1,
                        newPos := s.newPos + c.addSize + c.copySize,
                        oldPos := s.oldPos + c.addSize + c.seekSize } with
                  | .ok (chunks, restCtl, fin) =>
                    .ok (addChunks ++ copyChunks ++ chunks, restCtl, fin)
                  | .error e => .error e
  else .ok ([], controls, s)

/-! ## Chunk-free reference versions of the phases and the loop

These consume a whole phase in one step; the equivalence lemmas below show
the chunked functions compute the same bytes for every buffer size. -/

def addPhaseFlat (n : Nat) (oldS diffS : List Nat) :
    Except String (List Nat × List Nat × List Nat) :=
  if oldS.length < n ∨ diffS.length < n then .error "Unexpected EOF"
  else .ok (addBytes (oldS.take n) (diffS.take n), oldS.drop n, diffS.drop n)

def copyPhaseFlat (n : Nat) (extraS : List Nat) :
    Except String (List Nat × List Nat) :=
  if extraS.length < n then .error "Unexpected EOF"
  else .ok (extraS.take n, extraS.drop n)

def seekPhaseFlat (n : Nat) (oldS : List Nat) : Except String (List Nat) :=
  if oldS.length < n then .error "Unexpected EOF" else .ok (oldS.drop n)

def bspatchLoopFlat (newSize : Int) (controls : List ControlRecord) (s : PatchState) :
    Except String (List Nat × List ControlRecord × PatchState) :=
  if s.newPos < newSize then
    match controls with
    | [] => .error "Unexpected EOF"
    | c :: rest =>
      if s.newPos + c.addSize > newSize ∨ c.addSize < 0 then .error "Corrupt patch"
      else
        match addPhaseFlat c.addSize.toNat s.oldS s.diffS with
        | .error e => .error e
        | .ok (addOut, oldS1, diffS1) =>
          if s.newPos + c.addSize + c.copySize > newSize ∨ c.copySize < 0 then
            .error "Corrupt patch"
          else
            match copyPhaseFlat c.copySize.toNat s.extraS with
            | .error e => .error e
            | .ok (copyOut, extraS1) =>
              if c.seekSize < 0 then .error "Corrupt patch"
              else
                match seekPhaseFlat c.seekSize.toNat oldS1 with
                | .error e => .error e
                | .ok oldS2 =>
                  match bspatchLoopFlat newSize rest
                      { oldS := oldS2, diffS := diffS1, extraS := extraS1,
                        newPos := s.newPos + c.addSize + c.copySize,
                        oldPos := s.oldPos + c.addSize + c.seekSize } with
                  | .ok (out, restCtl, fin) => .ok (addOut ++ copyOut ++ out, restCtl, fin)
                  | .error e => .error e
  else .ok ([], controls, s)

/-- Sum of `addSize + copySize` over a list of control records (the total
advance of `newPos`). -/
def sumAC (cs : List ControlRecord) : Int :=
  (cs.map (fun c => c.addSize + c.copySize)).sum

/-- Sum of `addSize + seekSize` over a list of control records (the total
advance of `oldPos`, and the total number of old-source bytes read). -/
def sumAS (cs : List ControlRecord) : Int :=
  (cs.map (fun c => c.addSize + c.seekSize)).sum

/-- The successive values `newPos` takes while consuming the given control
records, starting from `p`: after each add phase and after each copy
phase. -/
def stepSums (p : Int) : List ControlRecord → List Int
  | [] => []
  | c :: cs =>
    (p + c.addSize) :: (p + c.addSize + c.copySize) ::
      stepSums (p + c.addSize + c.copySize) cs

/-- A 32-byte header whose magic is correct and whose `controlSize` field is
the wire encoding of `-1` (magnitude 1, sign bit `0x80` of the 8th byte
set); `diffSize` and `newSize` are zero. -/
def headerWireNegative : List Nat :=
  MAGIC ++ [1, 0, 0, 0, 0, 0, 0, 0x80] ++
  [0, 0, 0, 0, 0, 0, 0, 0] ++ [0, 0, 0, 0, 0, 0, 0, 0]

/-! ## `emulateBYOB`: the buffer-request emulation layer

State of the wrapper over a chunk-handing reader: the chunks the upstream
reader will still hand out (the empty list means upstream reports done),
the retained pending chunk (`buffer` in the source, `null` = `none`), and
the read offset into it. -/

structure EmuState where
  chunks : List (List Nat)
  buffer : Option (List Nat)
  offset : Nat
deriving DecidableEq

/-- One call of `emulateBYOB(streamReader).read(destination)`, with
`destLen` the destination's length:

```js
if (!buffer || buffer.length === offset) {
  ({ value : buffer, done } = await streamReader.read());
  if (done) { return { done, value: destination.subarray(0, 0) }; }
  offset = 0;
}
const copyAmount = Math.min(destination.length, buffer.length - offset);
destination.set(buffer.subarray(offset, offset + copyAmount));
offset += copyAmount;
return { done: false, value: destination.subarray(0, copyAmount) };
```

Returns `none` when it reports `done` (and then zero bytes), otherwise
`some` of the bytes copied into the destination; paired with the updated
state. -/
def emulateRead (s : EmuState) (destLen : Nat) : Option (List Nat) × EmuState :=
  match
    (if s.buffer.isNone ∨ (s.buffer.getD []).length = s.offset then
      match s.chunks with
      | [] => none
      | chunk :: rest => some (⟨rest, some chunk, 0⟩ : EmuState)
    else some s) with
  | none => (none, { s with buffer := none })
  | some t =>
    let b := t.buffer.getD []
    let copyAmount := min destLen (b.length - t.offset)
    (some ((b.drop t.offset).take copyAmount), { t with offset := t.offset + copyAmount })

/-! ## `bitReaderFromStreamReader`: the bit-level reader -/

/-- The mask table `[0, 0x01, 0x03, 0x07, 0x0F, 0x1F, 0x3F, 0x7F, 0xFF]`. -/
def BITMASK : List Nat := [0, 0x01, 0x03, 0x07, 0x0F, 0x1F, 0x3F, 0x7F, 0xFF]

/-- State of the bit reader.  `stream` lists the results of the upstream
one-byte reads still to come (`some b` = one byte `b`, `none` = a
successful read that produced zero bytes; the end of the list = the reader
reports done).  `buffer` is the one-byte buffer, filled in place by each
upstream read; `cursor = none` embeds the source's `cursor = -1`, and
`some c` counts the bits already consumed from the buffered byte. -/
structure BitState where
  stream : List (Option Nat)
  buffer : Nat
  cursor : Option (Fin 8)
deriving DecidableEq

/-- The `while (n > 0)` loop of `readBits`, with `result` the accumulator.
Each iteration refills the one-byte buffer when `cursor === -1` (returning
the sentinel `-1` if the upstream read reports done or produces zero
bytes), then drains `left = 8 - cursor` bits (all remaining bits of the
byte when `n >= left`, shifting the accumulator left by `left`; otherwise
the top `n` of them).  All shifts and ors are JavaScript int32
operations. -/
def readBitsAux (st : BitState) (n : Nat) (result : Int) : Int × BitState :=
  if hn : n = 0 then (result, st)
  else
    match
      (match st.cursor with
       | some c => Sum.inr (st, c)
       | none =>
         match st.stream with
         | [] => Sum.inl st
         | none :: rest => Sum.inl { st with stream := rest }
         | some b :: rest =>
           Sum.inr (({ stream := rest, buffer := b, cursor := some 0 } : BitState),
             (0 : Fin 8))) with
    | Sum.inl stFail => (-1, stFail)
    | Sum.inr (st1, c) =>
      if hnl : 8 - c.val ≤ n then
        readBitsAux { st1 with cursor := none } (n - (8 - c.val))
          (jsOr (jsShl result (8 - c.val))
            (jsAnd ((BITMASK.getD (8 - c.val) 0 : Nat) : Int) (st1.buffer : Int)))
      else
        (jsOr (jsShl result n)
          (jsShr (jsAnd (st1.buffer : Int)
              (jsShl ((BITMASK.getD n 0 : Nat) : Int) (8 - n - c.val)))
            (8 - n - c.val)),
          { st1 with cursor := some ⟨c.val + n, by have := c.isLt; omega⟩ })
termination_by n
decreasing_by have := c.isLt; omega

/-- Entry point `readBits(n)`: run the loop with a zero accumulator. -/
def readBits (st : BitState) (n : Nat) : Int × BitState := readBitsAux st n 0

/-! ## Reference bit semantics (for stating what `readBits` computes) -/

/-- The `n` low bits of `v`, most significant first. -/
def natBitsMSB : Nat → Nat → List Bool
  | 0, _ => []
  | n + 1, v => decide (v / 2 ^ n % 2 = 1) :: natBitsMSB n (v % 2 ^ n)

/-- The value of a bit string read most-significant-bit first. -/
def bitsVal (bs : List Bool) : Nat :=
  bs.foldl (fun a bit => 2 * a + (if bit then 1 else 0)) 0

/-- The bits still available to a bit reader whose pending upstream reads
produce exactly the bytes `bytes`: the unconsumed low bits of the buffered
byte, then the bits of each upcoming byte, MSB first. -/
def availBitsFrom (st : BitState) (bytes : List Nat) : List Bool :=
  (match st.cursor with
   | some c => (natBitsMSB 8 st.buffer).drop c.val
   | none => []) ++ bytes.flatMap (fun b => natBitsMSB 8 b)

/-- The specification a `readBits` loop run satisfies on a well-formed
state with enough bits: the final state again streams plain bytes and
holds exactly the bits after the first `n`, and the returned value is
those `n` bits MSB-first as an int32. -/
def ReadBitsSpec (n : Nat) (st : BitState) (bytes : List Nat) (result : Int) : Prop :=
  ∃ bytes2 : List Nat,
    (readBitsAux st n result).2.stream = bytes2.map some ∧
    (∀ b ∈ bytes2, b < 256) ∧
    (readBitsAux st n result).2.buffer < 256 ∧
    availBitsFrom (readBitsAux st n result).2 bytes2 =
      (availBitsFrom st bytes).drop n ∧
    (readBitsAux st n result).1 =
      toInt32 (result * 2 ^ n + bitsVal ((availBitsFrom st bytes).take n))

end Bspatch

namespace Bspatch

/-! ## Basic lemmas -/

theorem except_map_eq_error {α β : Type} {f : α → β} {x : Except String α} {e : String} :
    x.map f = .error e ↔ x = .error e := by
  cases x <;> simp [Except.map]

theorem except_map_eq_ok {α β : Type} {f : α → β} {x : Except String α} {b : β}
    (h : x.map f = .ok b) : ∃ a, x = .ok a ∧ f a = b := by
  cases x with
  | error e => simp [Except.map] at h
  | ok a => exact ⟨a, rfl, by simpa [Except.map] using h⟩

theorem addBytes_take_split (k n : Nat) (hk : k ≤ n) (l r : List Nat)
    (hl : k ≤ l.length) (hr : k ≤ r.length) :
    addBytes (l.take n) (r.take n) =
      addBytes (l.take k) (r.take k) ++
        addBytes ((l.drop k).take (n - k)) ((r.drop k).take (n - k)) := by
  conv_lhs => rw [show n = k + (n - k) by omega, List.take_add, List.take_add]
  unfold addBytes
  rw [List.zipWith_append _ _ _ _ _ (by simp [hl, hr])]

theorem addBytes_getD (l r : List Nat) (i : Nat) (hl : i < l.length) (hr : i < r.length) :
    (addBytes l r).getD i 0 = ((l.getD i 0) + (r.getD i 0)) % 256 := by
  induction l generalizing r i with
  | nil => simp at hl
  | cons a l ih =>
    cases r with
    | nil => simp at hr
    | cons b r =>
      cases i with
      | zero => simp [addBytes]
      | succ i =>
        simp only [addBytes, List.zipWith_cons_cons, List.getD_cons_succ]
        exact ih r i (by simpa using hl) (by simpa using hr)

theorem getD_take (l : List Nat) (n i : Nat) (hi : i < n) :
    (l.take n).getD i 0 = l.getD i 0 := by
  induction l generalizing n i with
  | nil => simp
  | cons a l ih =>
    cases n with
    | zero => omega
    | succ n =>
      cases i with
      | zero => simp
      | succ i => simpa using ih n i (by omega)

/-- The chunked add phase computes, for every buffer size, the flat result:
the emitted chunks concatenate to the byte-wise mod-256 sum of the first
`n` old and diff bytes, consuming exactly `n` bytes of each. -/
theorem addPhase_eq_flat (B : Nat) (hB : 0 < B) :
    ∀ (n : Nat) (oldS diffS : List Nat),
      (addPhase B hB n oldS diffS).map (fun r => (r.1.flatten, r.2)) =
        addPhaseFlat n oldS diffS := by
  intro n
  induction n using Nat.strong_induction_on with
  | _ n ih =>
    intro oldS diffS
    rw [addPhase]
    by_cases h : n = 0
    · subst h
      simp [addPhaseFlat, addBytes, Except.map]
    · rw [dif_neg h]
      set k := min B n with hk
      have hk1 : 1 ≤ k := by omega
      have hkn : k ≤ n := by omega
      by_cases ho : oldS.length < k
      · have : oldS.length < n := by omega
        simp [readExact, ho, addPhaseFlat, this, Except.map]
      · by_cases hd : diffS.length < k
        · have : diffS.length < n := by omega
          simp [readExact, ho, hd, addPhaseFlat, this, Except.map]
        · push_neg at ho hd
          have hrec := ih (n - k) (by omega) (oldS.drop k) (diffS.drop k)
          simp only [readExact, if_neg (by omega : ¬oldS.length < k),
            if_neg (by omega : ¬diffS.length < k)]
          by_cases hflat : oldS.length < n ∨ diffS.length < n
          · have : (oldS.drop k).length < n - k ∨ (diffS.drop k).length < n - k := by
              simp only [List.length_drop]; omega
            rw [addPhaseFlat, if_pos this] at hrec
            rw [except_map_eq_error] at hrec
            rw [hrec]
            simp [addPhaseFlat, hflat, Except.map]
          · push_neg at hflat
            obtain ⟨ho2, hd2⟩ := hflat
            have hflat' : ¬((oldS.drop k).length < n - k ∨ (diffS.drop k).length < n - k) := by
              simp only [List.length_drop]; omega
            rw [addPhaseFlat, if_neg hflat'] at hrec
            obtain ⟨⟨chunks, o, d⟩, hrx, hrf⟩ := except_map_eq_ok hrec
            rw [hrx]
            simp only [Except.map]
            simp only [Prod.mk.injEq] at hrf
            rw [addPhaseFlat, if_neg (by omega : ¬(oldS.length < n ∨ diffS.length < n))]
            simp only [List.flatten_cons, hrf.1, hrf.2]
            rw [List.drop_drop, List.drop_drop,
              show k + (n - k) = n by omega,
              ← addBytes_take_split k n hkn oldS diffS (by omega) (by omega)]

/-- The chunked copy phase computes the flat result for every buffer size. -/
theorem copyPhase_eq_flat (B : Nat) (hB : 0 < B) :
    ∀ (n : Nat) (extraS : List Nat),
      (copyPhase B hB n extraS).map (fun r => (r.1.flatten, r.2)) =
        copyPhaseFlat n extraS := by
  intro n
  induction n using Nat.strong_induction_on with
  | _ n ih =>
    intro extraS
    rw [copyPhase]
    by_cases h : n = 0
    · subst h
      simp [copyPhaseFlat, Except.map]
    · rw [dif_neg h]
      set k := min B n with hk
      have hk1 : 1 ≤ k := by omega
      have hkn : k ≤ n := by omega
      by_cases he : extraS.length < k
      · have : extraS.length < n := by omega
        simp [readExact, he, copyPhaseFlat, this, Except.map]
      · push_neg at he
        have hrec := ih (n - k) (by omega) (extraS.drop k)
        simp only [readExact, if_neg (by omega : ¬extraS.length < k)]
        by_cases hflat : extraS.length < n
        · have : (extraS.drop k).length < n - k := by
            simp only [List.length_drop]; omega
          rw [copyPhaseFlat, if_pos this] at hrec
          rw [except_map_eq_error] at hrec
          rw [hrec]
          simp [copyPhaseFlat, hflat, Except.map]
        · push_neg at hflat
          have hflat' : ¬(extraS.drop k).length < n - k := by
            simp only [List.length_drop]; omega
          rw [copyPhaseFlat, if_neg hflat'] at hrec
          obtain ⟨⟨chunks, ex⟩, hrx, hrf⟩ := except_map_eq_ok hrec
          rw [hrx]
          simp only [Except.map]
          simp only [Prod.mk.injEq] at hrf
          rw [copyPhaseFlat, if_neg (by omega : ¬extraS.length < n)]
          simp only [List.flatten_cons, hrf.1, hrf.2]
          rw [List.drop_drop]
          conv_rhs => rw [show n = k + (n - k) by omega, List.take_add]

/-- The chunked seek phase consumes exactly `n` old-source bytes for every
buffer size. -/
theorem seekPhase_eq_flat (B : Nat) (hB : 0 < B) :
    ∀ (n : Nat) (oldS : List Nat),
      seekPhase B hB n oldS = seekPhaseFlat n oldS := by
  intro n
  induction n using Nat.strong_induction_on with
  | _ n ih =>
    intro oldS
    rw [seekPhase]
    by_cases h : n = 0
    · subst h
      simp [seekPhaseFlat]
    · rw [dif_neg h]
      set k := min B n with hk
      have hk1 : 1 ≤ k := by omega
      have hkn : k ≤ n := by omega
      by_cases ho : oldS.length < k
      · have : oldS.length < n := by omega
        simp [readExact, ho, seekPhaseFlat, this]
      · push_neg at ho
        have hrec := ih (n - k) (by omega) (oldS.drop k)
        simp only [readExact, if_neg (by omega : ¬oldS.length < k)]
        rw [hrec, seekPhaseFlat, seekPhaseFlat]
        by_cases hflat : oldS.length < n
        · rw [if_pos (by simp only [List.length_drop]; omega), if_pos hflat]
        · rw [if_neg (by simp only [List.length_drop]; omega), if_neg hflat,
            List.drop_drop, show k + (n - k) = n by omega]

/-- The chunked loop computes, for every buffer size, the flat loop's
result: same error or same final state, with the emitted chunks
concatenating to the flat output. -/
theorem bspatchLoop_eq_flat (B : Nat) (hB : 0 < B) (newSize : Int) :
    ∀ (controls : List ControlRecord) (s : PatchState),
      (bspatchLoop B hB newSize controls s).map (fun r => (r.1.flatten, r.2)) =
        bspatchLoopFlat newSize controls s := by
  intro controls
  induction controls with
  | nil =>
    intro s
    rw [bspatchLoop, bspatchLoopFlat]
    by_cases hpos : s.newPos < newSize
    · simp [hpos, Except.map]
    · simp [hpos, Except.map]
  | cons c rest ih =>
    intro s
    rw [bspatchLoop, bspatchLoopFlat]
    by_cases hpos : s.newPos < newSize
    swap
    · simp [hpos, Except.map]
    simp only [if_pos hpos]
    by_cases hchk1 : s.newPos + c.addSize > newSize ∨ c.addSize < 0
    · simp [hchk1, Except.map]
    simp only [if_neg hchk1]
    have haf := addPhase_eq_flat B hB c.addSize.toNat s.oldS s.diffS
    cases haddf : addPhaseFlat c.addSize.toNat s.oldS s.diffS with
    | error e =>
      rw [haddf, except_map_eq_error] at haf
      rw [haf]
      simp [Except.map]
    | ok v =>
      rw [haddf] at haf
      obtain ⟨⟨addChunks, oldS1, diffS1⟩, hax, hafv⟩ := except_map_eq_ok haf
      obtain ⟨addOut, oldS1f, diffS1f⟩ := v
      simp only [Prod.mk.injEq] at hafv
      obtain ⟨hafv1, hafv2, hafv3⟩ := hafv
      subst hafv1 hafv2 hafv3
      rw [hax]
      simp only []
      by_cases hchk2 : s.newPos + c.addSize + c.copySize > newSize ∨ c.copySize < 0
      · simp [hchk2, Except.map]
      simp only [if_neg hchk2]
      have hcf := copyPhase_eq_flat B hB c.copySize.toNat s.extraS
      cases hcopyf : copyPhaseFlat c.copySize.toNat s.extraS with
      | error e =>
        rw [hcopyf, except_map_eq_error] at hcf
        rw [hcf]
        simp [Except.map]
      | ok w =>
        rw [hcopyf] at hcf
        obtain ⟨⟨copyChunks, extraS1⟩, hcx, hcfv⟩ := except_map_eq_ok hcf
        obtain ⟨copyOut, extraS1f⟩ := w
        simp only [Prod.mk.injEq] at hcfv
        obtain ⟨hcfv1, hcfv2⟩ := hcfv
        subst hcfv1 hcfv2
        rw [hcx]
        simp only []
        by_cases hchk3 : c.seekSize < 0
        · simp [hchk3, Except.map]
        simp only [if_neg hchk3]
        rw [seekPhase_eq_flat B hB c.seekSize.toNat oldS1]
        cases hseekf : seekPhaseFlat c.seekSize.toNat oldS1 with
        | error e => simp [Except.map]
        | ok oldS2 =>
          simp only []
          have hrec := ih ⟨oldS2, diffS1, extraS1, s.newPos + c.addSize + c.copySize,
            s.oldPos + c.addSize + c.seekSize⟩
          cases hloopf : bspatchLoopFlat newSize rest
              ⟨oldS2, diffS1, extraS1, s.newPos + c.addSize + c.copySize,
                s.oldPos + c.addSize + c.seekSize⟩ with
          | error e =>
            rw [hloopf, except_map_eq_error] at hrec
            rw [hrec]
            simp [Except.map]
          | ok u =>
            rw [hloopf] at hrec
            obtain ⟨⟨chunks, restCtl, fin⟩, hlx, hlv⟩ := except_map_eq_ok hrec
            obtain ⟨out, restCtlf, finf⟩ := u
            simp only [Prod.mk.injEq] at hlv
            obtain ⟨hlv1, hlv2, hlv3⟩ := hlv
            subst hlv1 hlv2 hlv3
            rw [hlx]
            simp [Except.map, List.flatten_append]

theorem addPhaseFlat_ok_inv {n : Nat} {oldS diffS : List Nat}
    {v : List Nat × List Nat × List Nat} (h : addPhaseFlat n oldS diffS = .ok v) :
    n ≤ oldS.length ∧ n ≤ diffS.length ∧
      v = (addBytes (oldS.take n) (diffS.take n), oldS.drop n, diffS.drop n) := by
  unfold addPhaseFlat at h
  split at h
  · exact absurd h (by simp)
  · next hc =>
    push_neg at hc
    exact ⟨hc.1, hc.2, by simpa using h.symm⟩

theorem copyPhaseFlat_ok_inv {n : Nat} {extraS : List Nat}
    {v : List Nat × List Nat} (h : copyPhaseFlat n extraS = .ok v) :
    n ≤ extraS.length ∧ v = (extraS.take n, extraS.drop n) := by
  unfold copyPhaseFlat at h
  split at h
  · exact absurd h (by simp)
  · next hc => exact ⟨by omega, by simpa using h.symm⟩

theorem seekPhaseFlat_ok_inv {n : Nat} {oldS : List Nat}
    {v : List Nat} (h : seekPhaseFlat n oldS = .ok v) :
    n ≤ oldS.length ∧ v = oldS.drop n := by
  unfold seekPhaseFlat at h
  split at h
  · exact absurd h (by simp)
  · next hc => exact ⟨by omega, by simpa using h.symm⟩

theorem sumAC_cons (c : ControlRecord) (l : List ControlRecord) :
    sumAC (c :: l) = (c.addSize + c.copySize) + sumAC l := by
  simp [sumAC]

theorem sumAS_cons (c : ControlRecord) (l : List ControlRecord) :
    sumAS (c :: l) = (c.addSize + c.seekSize) + sumAS l := by
  simp [sumAS]

/-- Everything a successful flat-loop run guarantees: it consumed a prefix
of the control records, `newPos` ended exactly at `newSize` having advanced
by `addSize + copySize` per record and never exceeding `newSize` at any
checkpoint, `oldPos` advanced by `addSize + seekSize` per record and that
many bytes were consumed from the old source, the output length matches the
`newPos` advance, and every consumed record had nonnegative sizes. -/
theorem bspatchLoopFlat_ok_facts (newSize : Int) :
    ∀ (controls : List ControlRecord) (s : PatchState)
      (out : List Nat) (restCtl : List ControlRecord) (fin : PatchState),
      bspatchLoopFlat newSize controls s = .ok (out, restCtl, fin) →
      0 ≤ s.newPos → s.newPos ≤ newSize →
      ∃ k, k ≤ controls.length ∧ restCtl = controls.drop k ∧
        fin.newPos = newSize ∧
        fin.newPos = s.newPos + sumAC (controls.take k) ∧
        fin.oldPos = s.oldPos + sumAS (controls.take k) ∧
        (s.oldS.length : Int) = (fin.oldS.length : Int) + sumAS (controls.take k) ∧
        (out.length : Int) = fin.newPos - s.newPos ∧
        (∀ v ∈ stepSums s.newPos (controls.take k), 0 ≤ v ∧ v ≤ newSize) ∧
        (∀ c' ∈ controls.take k, 0 ≤ c'.addSize ∧ 0 ≤ c'.copySize ∧ 0 ≤ c'.seekSize) := by
  intro controls
  induction controls with
  | nil =>
    intro s out restCtl fin h h0 h1
    rw [bspatchLoopFlat] at h
    by_cases hpos : s.newPos < newSize
    · rw [if_pos hpos] at h
      exact absurd h (by simp)
    · rw [if_neg hpos] at h
      simp only [Except.ok.injEq, Prod.mk.injEq] at h
      obtain ⟨hout, hctl, hfin⟩ := h
      subst hout hctl hfin
      exact ⟨0, Nat.zero_le _, by simp, by omega, by simp [sumAC], by simp [sumAS],
        by simp [sumAS], by simp, by simp [stepSums], by simp⟩
  | cons c rest ih =>
    intro s out restCtl fin h h0 h1
    rw [bspatchLoopFlat] at h
    by_cases hpos : s.newPos < newSize
    swap
    · rw [if_neg hpos] at h
      simp only [Except.ok.injEq, Prod.mk.injEq] at h
      obtain ⟨hout, hctl, hfin⟩ := h
      subst hout hctl hfin
      exact ⟨0, Nat.zero_le _, by simp, by omega, by simp [sumAC], by simp [sumAS],
        by simp [sumAS], by simp, by simp [stepSums], by simp⟩
    rw [if_pos hpos] at h
    by_cases hchk1 : s.newPos + c.addSize > newSize ∨ c.addSize < 0
    · rw [if_pos hchk1] at h
      exact absurd h (by simp)
    rw [if_neg hchk1] at h
    push_neg at hchk1
    cases haddf : addPhaseFlat c.addSize.toNat s.oldS s.diffS with
    | error e => rw [haddf] at h; exact absurd h (by simp)
    | ok v =>
      rw [haddf] at h
      obtain ⟨hao, had, hav⟩ := addPhaseFlat_ok_inv haddf
      obtain ⟨addOut, oldS1, diffS1⟩ := v
      simp only [Prod.mk.injEq] at hav
      obtain ⟨hav1, hav2, hav3⟩ := hav
      simp only [] at h
      by_cases hchk2 : s.newPos + c.addSize + c.copySize > newSize ∨ c.copySize < 0
      · rw [if_pos hchk2] at h
        exact absurd h (by simp)
      rw [if_neg hchk2] at h
      push_neg at hchk2
      cases hcopyf : copyPhaseFlat c.copySize.toNat s.extraS with
      | error e => rw [hcopyf] at h; exact absurd h (by simp)
      | ok w =>
        rw [hcopyf] at h
        obtain ⟨hco, hcv⟩ := copyPhaseFlat_ok_inv hcopyf
        obtain ⟨copyOut, extraS1⟩ := w
        simp only [Prod.mk.injEq] at hcv
        obtain ⟨hcv1, hcv2⟩ := hcv
        simp only [] at h
        by_cases hchk3 : c.seekSize < 0
        · rw [if_pos hchk3] at h
          exact absurd h (by simp)
        rw [if_neg hchk3] at h
        push_neg at hchk3
        cases hseekf : seekPhaseFlat c.seekSize.toNat oldS1 with
        | error e => rw [hseekf] at h; exact absurd h (by simp)
        | ok oldS2 =>
          rw [hseekf] at h
          obtain ⟨hso, hsv⟩ := seekPhaseFlat_ok_inv hseekf
          simp only [] at h
          cases hrec : bspatchLoopFlat newSize rest
              ⟨oldS2, diffS1, extraS1, s.newPos + c.addSize + c.copySize,
                s.oldPos + c.addSize + c.seekSize⟩ with
          | error e => rw [hrec] at h; exact absurd h (by simp)
          | ok u =>
            rw [hrec] at h
            obtain ⟨outR, restCtlR, finR⟩ := u
            simp only [Except.ok.injEq, Prod.mk.injEq] at h
            obtain ⟨hout, hctl, hfin⟩ := h
            subst hout hctl hfin
            obtain ⟨k, hk, hkctl, hkfin, hkac, hkas, hklen, hkout, hkstep, hkrec⟩ :=
              ih ⟨oldS2, diffS1, extraS1, s.newPos + c.addSize + c.copySize,
                s.oldPos + c.addSize + c.seekSize⟩ outR restCtlR finR hrec
                (by show (0 : Int) ≤ s.newPos + c.addSize + c.copySize; omega)
                (by show s.newPos + c.addSize + c.copySize ≤ newSize; omega)
            simp only [] at hkac hkas hklen hkout hkstep
            have la1 : oldS1.length = s.oldS.length - c.addSize.toNat := by
              rw [hav2]; simp
            have la2 : oldS2.length = oldS1.length - c.seekSize.toNat := by
              rw [hsv]; simp
            have laddOut : addOut.length = c.addSize.toNat := by
              rw [hav1]
              simp only [addBytes, List.length_zipWith, List.length_take]
              omega
            have lcopyOut : copyOut.length = c.copySize.toNat := by
              rw [hcv1]
              simp only [List.length_take]
              omega
            refine ⟨k + 1, by simp only [List.length_cons]; omega, by simpa using hkctl,
              hkfin, ?_, ?_, ?_, ?_, ?_, ?_⟩
            · rw [List.take_succ_cons, sumAC_cons, hkac]
              ring
            · rw [List.take_succ_cons, sumAS_cons, hkas]
              ring
            · rw [List.take_succ_cons, sumAS_cons]
              omega
            · simp only [List.length_append]
              omega
            · rw [List.take_succ_cons, stepSums]
              intro v hv
              simp only [List.mem_cons] at hv
              rcases hv with hv | hv | hv
              · omega
              · omega
              · exact hkstep v hv
            · rw [List.take_succ_cons]
              intro c' hc'
              simp only [List.mem_cons] at hc'
              rcases hc' with hc' | hc'
              · subst hc'
                exact ⟨hchk1.2, hchk2.2, hchk3⟩
              · exact hkrec c' hc'

theorem bspatchLoop_ok_flatten {B : Nat} {hB : 0 < B} {newSize : Int}
    {controls : List ControlRecord} {s : PatchState} {chunks : List (List Nat)}
    {restCtl : List ControlRecord} {fin : PatchState}
    (h : bspatchLoop B hB newSize controls s = .ok (chunks, restCtl, fin)) :
    bspatchLoopFlat newSize controls s = .ok (chunks.flatten, restCtl, fin) := by
  have he := bspatchLoop_eq_flat B hB newSize controls s
  rw [h] at he
  simpa [Except.map] using he.symm

theorem bspatchLoop_error_char {B : Nat} {hB : 0 < B} {newSize : Int}
    {controls : List ControlRecord} {s : PatchState} {e : String} :
    bspatchLoop B hB newSize controls s = .error e ↔
      bspatchLoopFlat newSize controls s = .error e := by
  rw [← bspatchLoop_eq_flat B hB newSize controls s, except_map_eq_error]

theorem sumAS_nonneg {l : List ControlRecord}
    (h : ∀ c ∈ l, 0 ≤ c.addSize ∧ 0 ≤ c.seekSize) : 0 ≤ sumAS l := by
  induction l with
  | nil => simp [sumAS]
  | cons c cs ih =>
    rw [sumAS_cons]
    have h1 := h c (by simp)
    have h2 := ih fun c' hc' => h c' (by simp [hc'])
    omega

/-! ## Arithmetic facts about the JavaScript int32 operations -/

theorem toInt32_eq_of_emod {a b : Int} (h : a % 2 ^ 32 = b % 2 ^ 32) :
    toInt32 a = toInt32 b := by
  unfold toInt32
  omega

theorem toInt32_small {a : Int} (h1 : 0 ≤ a) (h2 : a < 2 ^ 31) : toInt32 a = a := by
  unfold toInt32
  omega

theorem toInt32_emod (a : Int) : toInt32 a % 2 ^ 32 = a % 2 ^ 32 := by
  unfold toInt32
  omega

theorem toUInt32_cast (a : Int) : (toUInt32 a : Int) = a % 2 ^ 32 := by
  unfold toUInt32
  omega

theorem toUInt32_ofNat {a : Nat} (h : a < 2 ^ 32) : toUInt32 (a : Int) = a := by
  unfold toUInt32
  omega

theorem jsAnd_ofNat {a b : Nat} (ha : a < 2 ^ 31) (hb : b < 2 ^ 31) :
    jsAnd (a : Int) (b : Int) = ((Nat.land a b : Nat) : Int) := by
  unfold jsAnd
  rw [toUInt32_ofNat (by omega), toUInt32_ofNat (by omega)]
  exact toInt32_small (by positivity) (by
    have : Nat.land a b ≤ a := Nat.and_le_left
    push_cast
    omega)

theorem land_mask (k b : Nat) : Nat.land (2 ^ k - 1) b = b % 2 ^ k := by
  apply Nat.eq_of_testBit_eq
  intro i
  show ((2 ^ k - 1) &&& b).testBit i = _
  rw [Nat.testBit_and, Nat.testBit_two_pow_sub_one, Nat.testBit_mod_two_pow]

theorem lor_pow_add {k m v : Nat} (hv : v < 2 ^ k) :
    Nat.lor (2 ^ k * m) v = 2 ^ k * m + v := by
  apply Nat.eq_of_testBit_eq
  intro i
  show ((2 ^ k * m) ||| v).testBit i = _
  rw [Nat.testBit_or, Nat.testBit_mul_pow_two_add m hv i,
    show 2 ^ k * m = m <<< k by rw [Nat.shiftLeft_eq]; ring, Nat.testBit_shiftLeft]
  by_cases hik : i < k
  · simp [hik, Nat.not_le.mpr hik]
  · have hvi : v.testBit i = false :=
      Nat.testBit_lt_two_pow (lt_of_lt_of_le hv (Nat.pow_le_pow_right (by norm_num) (by omega)))
    simp [hik, Nat.not_lt.mp hik, hvi]

theorem jsShl_eq (a : Int) (k : Nat) (hk : k < 32) : jsShl a k = toInt32 (a * 2 ^ k) := by
  unfold jsShl
  rw [Nat.mod_eq_of_lt hk]

/-- The key accumulation identity: shifting an int32 accumulator left by
`k < 32` and or-ing in a `k`-bit value is addition modulo `2^32`. -/
theorem jsOr_shl_add (r : Int) (k : Nat) (v : Nat) (hk : k < 32) (hv : v < 2 ^ k) :
    jsOr (jsShl r k) (v : Int) = toInt32 (r * 2 ^ k + v) := by
  rw [jsShl_eq _ _ hk]
  unfold jsOr
  have hX : (toUInt32 (toInt32 (r * 2 ^ k)) : Int) = (r * 2 ^ k) % 2 ^ 32 := by
    rw [toUInt32_cast, toInt32_emod]
  have hdvd : (2 ^ k : Int) ∣ (toUInt32 (toInt32 (r * 2 ^ k)) : Int) := by
    rw [hX]
    have h1 : (2 ^ k : Int) ∣ r * 2 ^ k := dvd_mul_left _ r
    have h2 : (2 ^ k : Int) ∣ 2 ^ 32 := pow_dvd_pow 2 (by omega)
    rw [Int.emod_def]
    exact dvd_sub h1 (h2.mul_right _)
  have hdvdN : 2 ^ k ∣ toUInt32 (toInt32 (r * 2 ^ k)) := by
    rw [← Int.natCast_dvd_natCast]
    push_cast
    exact hdvd

  obtain ⟨m, hm⟩ := hdvdN
  rw [toUInt32_ofNat (lt_of_lt_of_le hv (Nat.pow_le_pow_right (by norm_num) (by omega))), hm,
    lor_pow_add hv]
  apply toInt32_eq_of_emod
  have : ((2 ^ k * m + v : Nat) : Int) % 2 ^ 32 = ((r * 2 ^ k) % 2 ^ 32 + v) % 2 ^ 32 := by
    have hmx : ((2 ^ k * m : Nat) : Int) = (r * 2 ^ k) % 2 ^ 32 := by
      rw [← hm]
      exact hX
    push_cast
    push_cast at hmx
    omega
  rw [this]
  omega

theorem int_fdiv_ofNat (m k : Nat) : Int.fdiv (m : Int) (k : Int) = ((m / k : Nat) : Int) := by
  rcases k with _ | k
  · rcases m with _ | m <;> simp [Int.fdiv]
  · rw [Int.fdiv_eq_ediv _ (by positivity)]
    exact (Int.ofNat_ediv m (k + 1)).symm

theorem jsShr_ofNat {a : Nat} (ha : a < 2 ^ 31) (k : Nat) (hk : k < 32) :
    jsShr (a : Int) k = ((a / 2 ^ k : Nat) : Int) := by
  unfold jsShr
  rw [toInt32_small (by positivity) (by push_cast; omega), Nat.mod_eq_of_lt hk,
    show ((2 : Int) ^ k) = ((2 ^ k : Nat) : Int) by push_cast; ring]
  exact int_fdiv_ofNat a (2 ^ k)

/-- Extracting bit field `[sh, sh + n)` the way `readBits` does:
`(b & (mask_n << sh)) >> sh = b / 2^sh % 2^n`. -/
theorem extract_field (b n sh : Nat) (hb : b < 256) (hn : n ≤ 8) (hsh : sh ≤ 8) :
    jsShr (jsAnd (b : Int) (jsShl (((2 ^ n - 1 : Nat) : Nat) : Int) sh)) sh =
      ((b / 2 ^ sh % 2 ^ n : Nat) : Int) := by
  have hmask : ((2 ^ n - 1 : Nat) * 2 ^ sh) < 2 ^ 31 := by
    have h1 : (2 ^ n - 1 : Nat) < 2 ^ 8 := by
      have := Nat.pow_le_pow_right (show 0 < 2 by norm_num) hn
      omega
    have h2 : (2 ^ sh : Nat) ≤ 2 ^ 8 := Nat.pow_le_pow_right (by norm_num) hsh
    calc (2 ^ n - 1 : Nat) * 2 ^ sh < 2 ^ 8 * 2 ^ 8 := by
          apply Nat.mul_lt_mul_of_lt_of_le h1 h2
          norm_num
      _ ≤ 2 ^ 31 := by norm_num
  have hshl : jsShl (((2 ^ n - 1 : Nat) : Nat) : Int) sh =
      (((2 ^ n - 1) * 2 ^ sh : Nat) : Int) := by
    rw [jsShl_eq _ _ (by omega)]
    rw [show (((2 ^ n - 1 : Nat) : Int) * 2 ^ sh) = (((2 ^ n - 1) * 2 ^ sh : Nat) : Int) by
      push_cast; ring]
    exact toInt32_small (by positivity) (by exact_mod_cast hmask)
  rw [hshl, jsAnd_ofNat (by omega) hmask]
  have hland : Nat.land b ((2 ^ n - 1) * 2 ^ sh) = b / 2 ^ sh % 2 ^ n * 2 ^ sh := by
    apply Nat.eq_of_testBit_eq
    intro i
    show (b &&& ((2 ^ n - 1) * 2 ^ sh)).testBit i = _
    rw [Nat.testBit_and,
      show (2 ^ n - 1) * 2 ^ sh = (2 ^ n - 1) <<< sh by rw [Nat.shiftLeft_eq],
      show b / 2 ^ sh % 2 ^ n * 2 ^ sh = (b / 2 ^ sh % 2 ^ n) <<< sh by rw [Nat.shiftLeft_eq],
      Nat.testBit_shiftLeft, Nat.testBit_shiftLeft, Nat.testBit_two_pow_sub_one,
      Nat.testBit_mod_two_pow,
      show b / 2 ^ sh = b >>> sh by rw [Nat.shiftRight_eq_div_pow],
      Nat.testBit_shiftRight]
    by_cases hish : sh ≤ i
    · have hi : sh + (i - sh) = i := by omega
      simp [hish, hi, Bool.and_assoc, Bool.and_comm]
    · simp [hish]
  rw [hland]
  have : b / 2 ^ sh % 2 ^ n * 2 ^ sh < 2 ^ 31 := by
    have h1 : b / 2 ^ sh % 2 ^ n < 2 ^ n := Nat.mod_lt _ (by positivity)
    have h2 : (2 ^ n : Nat) ≤ 2 ^ 8 := Nat.pow_le_pow_right (by norm_num) hn
    have h3 : (2 ^ sh : Nat) ≤ 2 ^ 8 := Nat.pow_le_pow_right (by norm_num) hsh
    calc b / 2 ^ sh % 2 ^ n * 2 ^ sh < 2 ^ 8 * 2 ^ 8 := by
          apply Nat.mul_lt_mul_of_lt_of_le (by omega) h3
          norm_num
      _ ≤ 2 ^ 31 := by norm_num
  rw [jsShr_ofNat this sh (by omega), Nat.mul_div_cancel _ (by positivity)]

theorem toInt32_idem (a : Int) : toInt32 (toInt32 a) = toInt32 a :=
  toInt32_eq_of_emod (toInt32_emod a)

theorem toInt32_mul_add (x : Int) (m : Nat) (v : Int) :
    toInt32 (toInt32 x * 2 ^ m + v) = toInt32 (x * 2 ^ m + v) := by
  apply toInt32_eq_of_emod
  have h1 : (toInt32 x) % 2 ^ 32 = x % 2 ^ 32 := toInt32_emod x
  have h2 : Int.ModEq (2 ^ 32) (toInt32 x * 2 ^ m + v) (x * 2 ^ m + v) :=
    (Int.ModEq.mul_right (2 ^ m) h1).add_right v
  exact h2

/-! ## Facts about the reference bit semantics -/

theorem natBitsMSB_length (n v : Nat) : (natBitsMSB n v).length = n := by
  induction n generalizing v with
  | zero => rfl
  | succ n ih => simp [natBitsMSB, ih]

theorem bitsVal_foldl (bs : List Bool) (a : Nat) :
    bs.foldl (fun x bit => 2 * x + (if bit then 1 else 0)) a =
      a * 2 ^ bs.length + bitsVal bs := by
  induction bs generalizing a with
  | nil => simp [bitsVal]
  | cons b bs ih =>
    have hr : bitsVal (b :: bs) = (if b then 1 else 0) * 2 ^ bs.length + bitsVal bs := by
      show List.foldl _ 0 (b :: bs) = _
      rw [List.foldl_cons, ih]
      simp
    rw [List.foldl_cons, ih, hr, List.length_cons, pow_succ]
    ring

theorem bitsVal_cons (b : Bool) (bs : List Bool) :
    bitsVal (b :: bs) = (if b then 1 else 0) * 2 ^ bs.length + bitsVal bs := by
  rw [bitsVal, List.foldl_cons, bitsVal_foldl]
  simp

theorem bitsVal_append (xs ys : List Bool) :
    bitsVal (xs ++ ys) = bitsVal xs * 2 ^ ys.length + bitsVal ys := by
  rw [bitsVal, List.foldl_append, bitsVal_foldl]
  rfl

theorem natBitsMSB_mod (m n v : Nat) (h : m ≤ n) :
    natBitsMSB m (v % 2 ^ n) = natBitsMSB m v := by
  cases m with
  | zero => rfl
  | succ m =>
    rw [natBitsMSB, natBitsMSB]
    have h1 : (v % 2 ^ n).testBit m = v.testBit m := by
      rw [Nat.testBit_mod_two_pow]
      simp [show m < n by omega]
    rw [Nat.testBit_to_div_mod, Nat.testBit_to_div_mod] at h1
    rw [h1, Nat.mod_mod_of_dvd _ (pow_dvd_pow 2 (by omega))]

theorem bitsVal_natBitsMSB (n v : Nat) : bitsVal (natBitsMSB n v) = v % 2 ^ n := by
  induction n generalizing v with
  | zero => simp [natBitsMSB, bitsVal, Nat.mod_one]
  | succ n ih =>
    rw [natBitsMSB, bitsVal_cons, natBitsMSB_length, ih,
      Nat.mod_mod_of_dvd _ (dvd_refl _), pow_succ, Nat.mod_mul]
    rcases Nat.mod_two_eq_zero_or_one (v / 2 ^ n) with h | h
    · simp [h]
    · simp [h]
      ring

theorem natBitsMSB_drop (n c v : Nat) (h : c ≤ n) :
    (natBitsMSB n v).drop c = natBitsMSB (n - c) v := by
  induction n generalizing c v with
  | zero =>
    have : c = 0 := by omega
    subst this
    rfl
  | succ n ih =>
    cases c with
    | zero => rfl
    | succ c =>
      rw [natBitsMSB, List.drop_succ_cons, ih c (v % 2 ^ n) (by omega),
        natBitsMSB_mod (n - c) n v (by omega), Nat.succ_sub_succ]

theorem bitsVal_take_natBitsMSB (n k v : Nat) (h : k ≤ n) :
    bitsVal ((natBitsMSB n v).take k) = v / 2 ^ (n - k) % 2 ^ k := by
  induction n generalizing k v with
  | zero =>
    have : k = 0 := by omega
    subst this
    simp [bitsVal, Nat.mod_one]
  | succ n ih =>
    cases k with
    | zero => simp [bitsVal, Nat.mod_one]
    | succ k =>
      rw [natBitsMSB, List.take_succ_cons, bitsVal_cons, List.length_take,
        natBitsMSB_length, min_eq_left (by omega : k ≤ n), ih k (v % 2 ^ n) (by omega)]
      have hnk : n + 1 - (k + 1) = n - k := by omega
      rw [hnk]
      have h1 : (v % 2 ^ n) / 2 ^ (n - k) = v / 2 ^ (n - k) % 2 ^ k := by
        rw [show (2 : Nat) ^ n = 2 ^ (n - k) * 2 ^ k by
          rw [← pow_add]; congr 1; omega]
        exact Nat.mod_mul_right_div_self v _ _
      have h2 : v / 2 ^ (n - k) / 2 ^ k = v / 2 ^ n := by
        rw [Nat.div_div_eq_div_mul, ← pow_add]
        congr 2
        omega
      rw [h1, show (2 : Nat) ^ (k + 1) = 2 ^ k * 2 by ring, Nat.mod_mul, h2,
        Nat.mod_mod_of_dvd _ (dvd_refl _)]
      rcases Nat.mod_two_eq_zero_or_one (v / 2 ^ n) with h | h
      · simp [h]
      · simp [h]
        ring

theorem flatMap_bits_length (bytes : List Nat) :
    (bytes.flatMap (fun b => natBitsMSB 8 b)).length = 8 * bytes.length := by
  induction bytes with
  | nil => rfl
  | cons b bs ih =>
    simp only [List.flatMap_cons, List.length_append, natBitsMSB_length, ih,
      List.length_cons]
    ring

theorem BITMASK_getD {k : Nat} (h : k ≤ 8) : BITMASK.getD k 0 = 2 ^ k - 1 := by
  interval_cases k <;> rfl

/-- When the buffer is spent and the next upstream read produces a byte,
one `readBits` iteration refills the buffer and proceeds exactly as if it
had started on the refilled state. -/
theorem readBitsAux_refill_eq (sB b : Nat)
    (rest : List (Option Nat)) (n : Nat) (result : Int) (hn : n ≠ 0) :
    readBitsAux ⟨some b :: rest, sB, none⟩ n result =
      readBitsAux ⟨rest, b, some 0⟩ n result := by
  rw [readBitsAux, readBitsAux, dif_neg hn, dif_neg hn]

/-- One iteration when the request covers the rest of the buffered byte:
drain it and continue with the buffer marked spent. -/
theorem readBitsAux_step_ge (sS : List (Option Nat)) (sB : Nat) (c : Fin 8)
    (n : Nat) (result : Int) (hn : n ≠ 0) (hnl : 8 - c.val ≤ n) :
    readBitsAux ⟨sS, sB, some c⟩ n result =
      readBitsAux ⟨sS, sB, none⟩ (n - (8 - c.val))
        (jsOr (jsShl result (8 - c.val))
          (jsAnd ((BITMASK.getD (8 - c.val) 0 : Nat) : Int) (sB : Int))) := by
  rw [readBitsAux, dif_neg hn]
  simp only []
  rw [dif_pos hnl]

/-- The consume step of one `readBits` iteration, on a state whose buffer
holds a byte with the cursor at `c`: assuming the specification below for
all smaller `n` (the induction hypothesis of `readBitsAux_spec`), it holds
at `n`. -/
theorem readBitsAux_consume
    (n : Nat) (hn : n ≠ 0)
    (ih : ∀ m, m < n → ∀ (st : BitState) (bytes : List Nat) (result : Int),
      st.stream = bytes.map some →
      (∀ b ∈ bytes, b < 256) →
      st.buffer < 256 →
      result = toInt32 result →
      m ≤ (availBitsFrom st bytes).length →
      ReadBitsSpec m st bytes result)
    (sS : List (Option Nat)) (sB : Nat) (c : Fin 8) (bytes1 : List Nat) (result : Int)
    (hs1 : sS = bytes1.map some)
    (hb1 : ∀ b ∈ bytes1, b < 256)
    (hbuf1 : sB < 256)
    (hres : result = toInt32 result)
    (henough : n ≤ (availBitsFrom ⟨sS, sB, some c⟩ bytes1).length) :
    ReadBitsSpec n ⟨sS, sB, some c⟩ bytes1 result := by
  have hcval : c.val < 8 := c.isLt
  have hBRlen : ((natBitsMSB 8 sB).drop c.val).length = 8 - c.val := by
    rw [List.length_drop, natBitsMSB_length]
  have hTlen : (bytes1.flatMap (fun b => natBitsMSB 8 b)).length = 8 * bytes1.length :=
    flatMap_bits_length bytes1
  have havail : availBitsFrom ⟨sS, sB, some c⟩ bytes1 =
      (natBitsMSB 8 sB).drop c.val ++ bytes1.flatMap (fun b => natBitsMSB 8 b) := rfl
  rw [havail, List.length_append, hBRlen, hTlen] at henough
  by_cases hnl : 8 - c.val ≤ n
  · have hstep : readBitsAux (⟨sS, sB, some c⟩ : BitState) n result =
        readBitsAux ⟨sS, sB, none⟩ (n - (8 - c.val))
          (jsOr (jsShl result (8 - c.val))
            (jsAnd ((BITMASK.getD (8 - c.val) 0 : Nat) : Int) (sB : Int))) := by
      rw [readBitsAux, dif_neg hn]
      simp only []
      rw [dif_pos hnl]
    rw [ReadBitsSpec, hstep]
    have hmask31 : (2 ^ (8 - c.val) - 1 : Nat) < 2 ^ 31 := by
      have : (2 ^ (8 - c.val) : Nat) ≤ 2 ^ 8 := Nat.pow_le_pow_right (by norm_num) (by omega)
      omega
    have hacc : jsOr (jsShl result (8 - c.val))
        (jsAnd ((BITMASK.getD (8 - c.val) 0 : Nat) : Int) (sB : Int)) =
        toInt32 (result * 2 ^ (8 - c.val) + ((sB % 2 ^ (8 - c.val) : Nat) : Int)) := by
      rw [BITMASK_getD (by omega), jsAnd_ofNat hmask31 (by omega), land_mask]
      exact jsOr_shl_add result _ _ (by omega) (Nat.mod_lt _ (by positivity))
    have havail1 : availBitsFrom (⟨sS, sB, none⟩ : BitState) bytes1 =
        bytes1.flatMap (fun b => natBitsMSB 8 b) := rfl
    have hresacc : jsOr (jsShl result (8 - c.val))
        (jsAnd ((BITMASK.getD (8 - c.val) 0 : Nat) : Int) (sB : Int)) =
        toInt32 (jsOr (jsShl result (8 - c.val))
          (jsAnd ((BITMASK.getD (8 - c.val) 0 : Nat) : Int) (sB : Int))) := by
      rw [hacc, toInt32_idem]
    have hrec := ih (n - (8 - c.val)) (by omega) ⟨sS, sB, none⟩ bytes1
      (jsOr (jsShl result (8 - c.val))
        (jsAnd ((BITMASK.getD (8 - c.val) 0 : Nat) : Int) (sB : Int)))
      hs1 hb1 hbuf1 hresacc (by rw [havail1]; omega)
    rw [ReadBitsSpec] at hrec
    obtain ⟨bytes2, h1, h2, h3, h4, h5⟩ := hrec
    have hdropBR : ((natBitsMSB 8 sB).drop c.val).drop n = [] :=
      List.drop_eq_nil_of_le (by rw [hBRlen]; omega)
    have htakeBR : ((natBitsMSB 8 sB).drop c.val).take n = (natBitsMSB 8 sB).drop c.val :=
      List.take_of_length_le (by rw [hBRlen]; omega)
    refine ⟨bytes2, h1, h2, h3, ?_, ?_⟩
    · rw [h4, havail1, havail, List.drop_append_eq_append_drop, hBRlen,
        hdropBR, List.nil_append]
    · rw [h5, hacc, toInt32_mul_add, havail, List.take_append_eq_append_take,
        hBRlen, htakeBR, bitsVal_append]
      have htklen : ((bytes1.flatMap (fun b => natBitsMSB 8 b)).take
          (n - (8 - c.val))).length = n - (8 - c.val) := by
        rw [List.length_take, min_eq_left (by omega)]
      rw [htklen]
      have hbrval : bitsVal ((natBitsMSB 8 sB).drop c.val) = sB % 2 ^ (8 - c.val) := by
        rw [natBitsMSB_drop 8 c.val sB (by omega), bitsVal_natBitsMSB]
      rw [hbrval, havail1]
      apply congrArg
      push_cast
      rw [show n = (8 - c.val) + (n - (8 - c.val)) by omega, pow_add]
      ring_nf
      rw [show (8 - c.val) + (n - (8 - c.val)) - (8 - c.val) = n - (8 - c.val) by omega]
  · have hstep : readBitsAux (⟨sS, sB, some c⟩ : BitState) n result =
        (jsOr (jsShl result n)
          (jsShr (jsAnd (sB : Int)
              (jsShl ((BITMASK.getD n 0 : Nat) : Int) (8 - n - c.val)))
            (8 - n - c.val)),
          ⟨sS, sB, some ⟨c.val + n, by omega⟩⟩) := by
      rw [readBitsAux, dif_neg hn]
      simp only []
      rw [dif_neg hnl]
    rw [ReadBitsSpec, hstep]
    have hn8 : n ≤ 8 := by omega
    have hsh : 8 - n - c.val ≤ 8 := by omega
    have hextract : jsShr (jsAnd (sB : Int)
        (jsShl ((BITMASK.getD n 0 : Nat) : Int) (8 - n - c.val))) (8 - n - c.val) =
        ((sB / 2 ^ (8 - n - c.val) % 2 ^ n : Nat) : Int) := by
      rw [BITMASK_getD hn8]
      exact extract_field sB n (8 - n - c.val) hbuf1 hn8 hsh
    refine ⟨bytes1, hs1, hb1, hbuf1, ?_, ?_⟩
    · show (natBitsMSB 8 sB).drop (c.val + n) ++ bytes1.flatMap (fun b => natBitsMSB 8 b) = _
      rw [havail, List.drop_append_eq_append_drop, hBRlen,
        show n - (8 - c.val) = 0 by omega, List.drop_zero, List.drop_drop]
    · show jsOr (jsShl result n) _ = _
      rw [hextract, jsOr_shl_add result n _ (by omega) (Nat.mod_lt _ (by positivity))]
      apply congrArg
      rw [havail, List.take_append_eq_append_take, hBRlen,
        show n - (8 - c.val) = 0 by omega, List.take_zero, List.append_nil,
        natBitsMSB_drop 8 c.val sB (by omega),
        bitsVal_take_natBitsMSB (8 - c.val) n sB (by omega),
        show 8 - c.val - n = 8 - n - c.val by omega]

/-- What one `readBits` call computes when the upstream produces plain
bytes and enough bits are available: the result is the next `n` bits of the
stream, assembled MSB-first and reduced to an int32, and the final state
holds exactly the bits after them. -/
theorem readBitsAux_spec :
    ∀ n (st : BitState) (bytes : List Nat) (result : Int),
      st.stream = bytes.map some →
      (∀ b ∈ bytes, b < 256) →
      st.buffer < 256 →
      result = toInt32 result →
      n ≤ (availBitsFrom st bytes).length →
      ReadBitsSpec n st bytes result := by
  intro n
  induction n using Nat.strong_induction_on with
  | _ n ih =>
    intro st bytes result hstream hbytes hbuf hres henough
    by_cases hn : n = 0
    · subst hn
      rw [ReadBitsSpec, readBitsAux]
      simp only [dif_pos]
      exact ⟨bytes, hstream, hbytes, hbuf, by simp,
        by simp [bitsVal]; rw [← hres]⟩
    · obtain ⟨sS, sB, sC⟩ := st
      simp only [] at hstream hbuf henough
      cases sC with
      | some c =>
        exact readBitsAux_consume n hn ih sS sB c bytes result
          hstream hbytes hbuf hres henough
      | none =>
        cases hbs : bytes with
        | nil =>
          exfalso
          subst hbs
          have hav : availBitsFrom ⟨sS, sB, none⟩ ([] : List Nat) = [] := rfl
          rw [hav] at henough
          simp at henough
          omega
        | cons b bs =>
          subst hbs
          have hb256 : b < 256 := hbytes b (by simp)
          have hbs256 : ∀ x ∈ bs, x < 256 := fun x hx => hbytes x (by simp [hx])
          have hsS : sS = some b :: bs.map some := by simpa using hstream
          subst hsS
          have havail0 : availBitsFrom ⟨some b :: bs.map some, sB, none⟩ (b :: bs) =
              availBitsFrom ⟨bs.map some, b, some 0⟩ bs := by
            show (b :: bs).flatMap (fun x => natBitsMSB 8 x) =
              (natBitsMSB 8 b).drop 0 ++ bs.flatMap (fun x => natBitsMSB 8 x)
            simp
          have hcons := readBitsAux_consume n hn ih (bs.map some) b 0 bs result
            rfl hbs256 hb256 hres (by rw [← havail0]; exact henough)
          rw [ReadBitsSpec] at hcons ⊢
          obtain ⟨bytes2, h1, h2, h3, h4, h5⟩ := hcons
          rw [readBitsAux_refill_eq sB b (bs.map some) n result hn]
          exact ⟨bytes2, h1, h2, h3, by rw [h4, havail0], by rw [h5, havail0]⟩

/-- When the bits before the first blockage (a zero-byte upstream read or
the end of the stream) run out mid-read, `readBits` returns the sentinel
`-1`, whatever it had accumulated. -/
theorem readBitsAux_exhaust :
    ∀ n (st : BitState) (bytes : List Nat) (rest : List (Option Nat)) (result : Int),
      (st.stream = bytes.map some ++ none :: rest ∨ st.stream = bytes.map some) →
      (availBitsFrom st bytes).length < n →
      (readBitsAux st n result).1 = -1 := by
  intro n
  induction n using Nat.strong_induction_on with
  | _ n ih =>
    intro st bytes rest result hdisj hshort
    have hn : n ≠ 0 := by omega
    obtain ⟨sS, sB, sC⟩ := st
    cases sC with
    | some c =>
      have hc8 : c.val < 8 := c.isLt
      have hlen : (availBitsFrom ⟨sS, sB, some c⟩ bytes).length =
          (8 - c.val) + 8 * bytes.length := by
        show ((natBitsMSB 8 sB).drop c.val ++ _).length = _
        rw [List.length_append, List.length_drop, natBitsMSB_length, flatMap_bits_length]
      rw [hlen] at hshort
      have hnl : 8 - c.val ≤ n := by omega
      rw [readBitsAux_step_ge sS sB c n result hn hnl]
      have hlen2 : (availBitsFrom ⟨sS, sB, none⟩ bytes).length = 8 * bytes.length := by
        show (([] : List Bool) ++ _).length = _
        rw [List.nil_append, flatMap_bits_length]
      exact ih (n - (8 - c.val)) (by omega) ⟨sS, sB, none⟩ bytes rest _ hdisj
        (by rw [hlen2]; omega)
    | none =>
      cases bytes with
      | nil =>
        rcases hdisj with hs | hs
        · simp only [List.map_nil, List.nil_append] at hs
          subst hs
          rw [readBitsAux, dif_neg hn]
        · simp only [List.map_nil] at hs
          subst hs
          rw [readBitsAux, dif_neg hn]
      | cons b bs =>
        obtain ⟨R, hR, hRdisj⟩ : ∃ R, sS = some b :: R ∧
            (R = bs.map some ++ none :: rest ∨ R = bs.map some) := by
          rcases hdisj with hs | hs
          · exact ⟨bs.map some ++ none :: rest, by simpa using hs, Or.inl rfl⟩
          · exact ⟨bs.map some, by simpa using hs, Or.inr rfl⟩
        subst hR
        have hlen : (availBitsFrom ⟨some b :: R, sB, none⟩ (b :: bs)).length =
            8 + 8 * bs.length := by
          show (([] : List Bool) ++ _).length = _
          rw [List.nil_append, flatMap_bits_length]
          simp only [List.length_cons]
          ring
        rw [hlen] at hshort
        rw [readBitsAux_refill_eq sB b R n result hn,
          readBitsAux_step_ge R b 0 n result hn (by simp only [Fin.val_zero]; omega)]
        have hlen2 : (availBitsFrom ⟨R, b, none⟩ bs).length = 8 * bs.length := by
          show (([] : List Bool) ++ _).length = _
          rw [List.nil_append, flatMap_bits_length]
        apply ih (n - (8 - (0 : Fin 8).val)) (by simp only [Fin.val_zero]; omega)
          ⟨R, b, none⟩ bs rest _ hRdisj
        rw [hlen2]
        simp only [Fin.val_zero]
        omega

/-- Sanity: on a small nonnegative value both decoders agree. -/
theorem getInt64_small_agree :
    getInt64 [5, 1, 0, 0, 0, 0, 0, 0] 0 = 261 ∧
    getInt64Spec [5, 1, 0, 0, 0, 0, 0, 0] 0 = 261 := by
  constructor <;> decide

/-- C1 (code bug).  `getInt64` does not implement the BSDIFF
sign-magnitude decoding.  Two slips in the source falsify the claim:
JavaScript `<<` reduces shift counts modulo 32, so the contributions of
bytes 4–7 land on bits 0–31 instead of bits 32–62 (first input: wire value
`2^32` decodes to `1`); and `bytes[7] & 0x80 != 0` parses as
`bytes[7] & (0x80 != 0)` = `bytes[7] & 1`, so the sign is taken from bit
`0x01` of the 8th byte, not bit `0x80` (second input: wire value `-1`
decodes to `+1`; third input: wire value `2^56 + 1`, nonnegative on the
wire, decodes to the negative `-16777217`). -/
theorem getInt64_decode_bug :
    getInt64 [0, 0, 0, 0, 1, 0, 0, 0] 0 = 1 ∧
    getInt64Spec [0, 0, 0, 0, 1, 0, 0, 0] 0 = 2 ^ 32 ∧
    getInt64 [1, 0, 0, 0, 0, 0, 0, 0x80] 0 = 1 ∧
    getInt64Spec [1, 0, 0, 0, 0, 0, 0, 0x80] 0 = -1 ∧
    getInt64 [1, 0, 0, 0, 0, 0, 0, 0x01] 0 = -16777217 ∧
    getInt64Spec [1, 0, 0, 0, 0, 0, 0, 0x01] 0 = 2 ^ 56 + 1 := by
  refine ⟨by decide, by decide, by decide, by decide, by decide, by decide⟩

/-- C3 (confirmed).  Invariants of the `while (newPos < newSize)` loop,
starting from any in-range position (at entry `newPos = 0 ≤ newSize`):
on success the loop stops with `newPos` exactly at `newSize`, having
consumed a prefix of the control records and advanced `newPos` by exactly
`addSize` then `copySize` per record (so every intermediate checkpoint
value in `stepSums` stays within `[0, newSize]`); and the loop throws
`'Corrupt patch'` whenever the next record's `addSize` — or, after a
successful add phase, its `copySize` — is negative or would push `newPos`
past `newSize`. -/
theorem bspatch_loop_invariants (B : Nat) (hB : 0 < B) (newSize : Int)
    (controls : List ControlRecord) (s : PatchState)
    (h0 : 0 ≤ s.newPos) (h1 : s.newPos ≤ newSize) :
    (∀ chunks restCtl fin,
        bspatchLoop B hB newSize controls s = .ok (chunks, restCtl, fin) →
        fin.newPos = newSize ∧
        ∃ k, k ≤ controls.length ∧ restCtl = controls.drop k ∧
          fin.newPos = s.newPos + sumAC (controls.take k) ∧
          ∀ v ∈ stepSums s.newPos (controls.take k), 0 ≤ v ∧ v ≤ newSize)
    ∧ (∀ c rest, controls = c :: rest → s.newPos < newSize →
        s.newPos + c.addSize > newSize ∨ c.addSize < 0 →
        bspatchLoop B hB newSize controls s = .error "Corrupt patch")
    ∧ (∀ c rest r, controls = c :: rest → s.newPos < newSize →
        ¬(s.newPos + c.addSize > newSize ∨ c.addSize < 0) →
        addPhase B hB c.addSize.toNat s.oldS s.diffS = .ok r →
        s.newPos + c.addSize + c.copySize > newSize ∨ c.copySize < 0 →
        bspatchLoop B hB newSize controls s = .error "Corrupt patch") := by
  refine ⟨?_, ?_, ?_⟩
  · intro chunks restCtl fin h
    obtain ⟨k, hk, hctl, hfin, hac, _, _, _, hstep, _⟩ :=
      bspatchLoopFlat_ok_facts newSize controls s chunks.flatten restCtl fin
        (bspatchLoop_ok_flatten h) h0 h1
    exact ⟨hfin, k, hk, hctl, hac, hstep⟩
  · intro c rest hc hpos hbad
    subst hc
    rw [bspatchLoop, if_pos hpos, if_pos hbad]
  · intro c rest r hc hpos hchk1 hadd hbad2
    subst hc
    obtain ⟨addChunks, oldS1, diffS1⟩ := r
    rw [bspatchLoop, if_pos hpos, if_neg hchk1, hadd]
    simp only []
    rw [if_pos hbad2]

/-- Witness for C3: a concrete successful run (`newSize = 2`, one record
adding one byte and copying one byte) reaches `newPos = 2` exactly, and its
hypotheses hold at that input. -/
theorem bspatch_loop_invariants_witness :
    ((0 : Int) ≤ 0 ∧ (0 : Int) ≤ 2) ∧
      (⟨[], [], [], 2, 1⟩ : PatchState).newPos = 2 :=
  ⟨⟨by decide, by decide⟩,
    ((bspatch_loop_invariants 1 Nat.one_pos 2 [⟨1, 1, 0⟩] ⟨[10], [5], [7], 0, 0⟩
        (by decide) (by decide)).1 [[15], [7]] [] ⟨[], [], [], 2, 1⟩
        (by simp [bspatchLoop, addPhase, copyPhase, seekPhase, readExact, addBytes])).1⟩

/-- C9 (confirmed).  The old source is consumed strictly forward: on
any successful run the loop consumed a prefix of the control records, the
old-source cursor advanced by exactly `addSize + seekSize` per consumed
record (all of them nonnegative, so `oldPos` is monotone), and precisely
that many bytes were taken off the front of the old-source stream — seeks
are realized by reading and discarding, never by repositioning. -/
theorem bspatch_old_source_forward (B : Nat) (hB : 0 < B) (newSize : Int)
    (controls : List ControlRecord) (s : PatchState)
    (h0 : 0 ≤ s.newPos) (h1 : s.newPos ≤ newSize)
    (chunks : List (List Nat)) (restCtl : List ControlRecord) (fin : PatchState)
    (h : bspatchLoop B hB newSize controls s = .ok (chunks, restCtl, fin)) :
    ∃ k, k ≤ controls.length ∧ restCtl = controls.drop k ∧
      fin.oldPos = s.oldPos + sumAS (controls.take k) ∧
      (s.oldS.length : Int) = (fin.oldS.length : Int) + sumAS (controls.take k) ∧
      s.oldPos ≤ fin.oldPos ∧
      ∀ c' ∈ controls.take k, 0 ≤ c'.addSize ∧ 0 ≤ c'.seekSize := by
  obtain ⟨k, hk, hctl, _, _, has, hlen, _, _, hrec⟩ :=
    bspatchLoopFlat_ok_facts newSize controls s chunks.flatten restCtl fin
      (bspatchLoop_ok_flatten h) h0 h1
  have hnn : ∀ c' ∈ controls.take k, 0 ≤ c'.addSize ∧ 0 ≤ c'.seekSize :=
    fun c' hc' => ⟨(hrec c' hc').1, (hrec c' hc').2.2⟩
  exact ⟨k, hk, hctl, has, hlen, by have := sumAS_nonneg hnn; omega, hnn⟩

/-- Witness for C9: a run with one record (`addSize 1`, `seekSize 2`)
consumes all three old-source bytes; the hypotheses hold at that input. -/
theorem bspatch_old_source_forward_witness :
    ((0 : Int) ≤ 0 ∧ (0 : Int) ≤ 1) ∧
      ∃ k, k ≤ 1 ∧ ([] : List ControlRecord) = [(⟨1, 0, 2⟩ : ControlRecord)].drop k ∧
        (⟨[], [], [], 1, 3⟩ : PatchState).oldPos =
          0 + sumAS ([(⟨1, 0, 2⟩ : ControlRecord)].take k) ∧
        (([10, 1, 2] : List Nat).length : Int) =
          ((⟨[], [], [], 1, 3⟩ : PatchState).oldS.length : Int) +
            sumAS ([(⟨1, 0, 2⟩ : ControlRecord)].take k) ∧
        (0 : Int) ≤ (⟨[], [], [], 1, 3⟩ : PatchState).oldPos ∧
        ∀ c' ∈ [(⟨1, 0, 2⟩ : ControlRecord)].take k, 0 ≤ c'.addSize ∧ 0 ≤ c'.seekSize :=
  ⟨⟨by decide, by decide⟩,
    bspatch_old_source_forward 2 (by decide) 1 [⟨1, 0, 2⟩] ⟨[10, 1, 2], [5], [], 0, 0⟩
      (by decide) (by decide) [[15]] [] ⟨[], [], [], 1, 3⟩
      (by simp [bspatchLoop, addPhase, copyPhase, seekPhase, readExact, addBytes])⟩

/-- C8 (confirmed).  Chunking transparency: for any two buffer sizes
`B1, B2 ≥ 1` and identical inputs, the two instantiations of the loop agree
on everything observable — same error, or same concatenated output bytes
and same final state.  The internal chunk size is not observable. -/
theorem bspatch_chunking_transparent (B1 B2 : Nat) (hB1 : 0 < B1) (hB2 : 0 < B2)
    (newSize : Int) (controls : List ControlRecord) (s : PatchState) :
    (bspatchLoop B1 hB1 newSize controls s).map (fun r => (r.1.flatten, r.2)) =
      (bspatchLoop B2 hB2 newSize controls s).map (fun r => (r.1.flatten, r.2)) := by
  rw [bspatchLoop_eq_flat, bspatchLoop_eq_flat]

/-- Witness for C8: buffer sizes 1 and 3 on a concrete run. -/
theorem bspatch_chunking_transparent_witness :
    (bspatchLoop 1 Nat.one_pos 3 [⟨2, 1, 0⟩] ⟨[1, 2], [3, 4], [9], 0, 0⟩).map
        (fun r => (r.1.flatten, r.2)) =
      (bspatchLoop 3 (by decide) 3 [⟨2, 1, 0⟩] ⟨[1, 2], [3, 4], [9], 0, 0⟩).map
        (fun r => (r.1.flatten, r.2)) :=
  bspatch_chunking_transparent 1 3 Nat.one_pos (by decide) 3 [⟨2, 1, 0⟩]
    ⟨[1, 2], [3, 4], [9], 0, 0⟩

/-- Counterexample to C2 as stated: at a well-formed state whose next
control record has `seekSize = -1`, the engine throws exactly the
format-corruption error `'Corrupt patch'` — there is no distinct
CapabilityError anywhere in the source (`if (seekSize < 0) throw new
Error('Corrupt patch')`), regardless of the reader's capabilities. -/
theorem negative_seek_corrupt_patch_cex :
    bspatchLoop 4096 (by decide) 1 [⟨0, 0, -1⟩] ⟨[], [], [], 0, 0⟩ =
      .error "Corrupt patch" := by
  simp [bspatchLoop, addPhase, copyPhase, readExact]

/-- C2 amended (corrected).  Whenever the loop reaches the seek step of
a control record with negative `seekSize` (the add and copy phases having
passed their checks), it throws the same `'Corrupt patch'` error used for
format corruption; the code signals no distinct capability error. -/
theorem negative_seek_throws_corrupt_patch (B : Nat) (hB : 0 < B) (newSize : Int)
    (c : ControlRecord) (rest : List ControlRecord) (s : PatchState)
    (r1 : List (List Nat) × List Nat × List Nat) (r2 : List (List Nat) × List Nat)
    (hpos : s.newPos < newSize)
    (hchk1 : ¬(s.newPos + c.addSize > newSize ∨ c.addSize < 0))
    (hadd : addPhase B hB c.addSize.toNat s.oldS s.diffS = .ok r1)
    (hchk2 : ¬(s.newPos + c.addSize + c.copySize > newSize ∨ c.copySize < 0))
    (hcopy : copyPhase B hB c.copySize.toNat s.extraS = .ok r2)
    (hseek : c.seekSize < 0) :
    bspatchLoop B hB newSize (c :: rest) s = .error "Corrupt patch" := by
  obtain ⟨addChunks, oldS1, diffS1⟩ := r1
  obtain ⟨copyChunks, extraS1⟩ := r2
  rw [bspatchLoop, if_pos hpos, if_neg hchk1, hadd]
  simp only []
  rw [if_neg hchk2, hcopy]
  simp only []
  rw [if_pos hseek]

/-- Witness for C2 (amended): the hypotheses are satisfiable — a concrete
state and record with `seekSize = -1` whose add and copy phases succeed. -/
theorem negative_seek_throws_corrupt_patch_witness :
    bspatchLoop 1 Nat.one_pos 1 [⟨0, 0, -1⟩] ⟨[], [], [], 0, 0⟩ =
      .error "Corrupt patch" :=
  negative_seek_throws_corrupt_patch 1 Nat.one_pos 1 ⟨0, 0, -1⟩ [] ⟨[], [], [], 0, 0⟩
    ([], [], []) ([], []) (by decide) (by decide) (by simp [addPhase])
    (by decide) (by simp [copyPhase]) (by decide)

/-- C6 (confirmed).  The add phase: given `addSize = n` bytes available
on both streams, it succeeds, consumes exactly `n` bytes from the old
source and `n` bytes from the diff stream, and the bytes it emits are the
byte-wise sums modulo 256 — position for position. -/
theorem addPhase_bytewise (B : Nat) (hB : 0 < B) (n : Nat) (oldS diffS : List Nat)
    (h1 : n ≤ oldS.length) (h2 : n ≤ diffS.length) :
    ∃ chunks, addPhase B hB n oldS diffS = .ok (chunks, oldS.drop n, diffS.drop n) ∧
      chunks.flatten = addBytes (oldS.take n) (diffS.take n) ∧
      ∀ i, i < n → chunks.flatten.getD i 0 = ((oldS.getD i 0) + (diffS.getD i 0)) % 256 := by
  have hf := addPhase_eq_flat B hB n oldS diffS
  rw [addPhaseFlat, if_neg (by omega)] at hf
  obtain ⟨⟨chunks, o, d⟩, hx, hv⟩ := except_map_eq_ok hf
  simp only [Prod.mk.injEq] at hv
  obtain ⟨hv1, hv2, hv3⟩ := hv
  subst hv2 hv3
  refine ⟨chunks, hx, hv1, ?_⟩
  intro i hi
  rw [hv1]
  rw [addBytes_getD _ _ _ (by simp; omega) (by simp; omega)]
  rw [getD_take _ _ _ hi, getD_take _ _ _ hi]

/-- Witness for C6: three bytes added across a chunk boundary (`B = 2`),
including an 8-bit wraparound (`255 + 3 = 258 ≡ 2`). -/
theorem addPhase_bytewise_witness :
    3 ≤ ([1, 2, 255, 9] : List Nat).length ∧ 3 ≤ ([4, 5, 3] : List Nat).length ∧
      ∃ chunks, addPhase 2 (by decide) 3 [1, 2, 255, 9] [4, 5, 3] =
          .ok (chunks, ([1, 2, 255, 9] : List Nat).drop 3, ([4, 5, 3] : List Nat).drop 3) ∧
        chunks.flatten = addBytes (([1, 2, 255, 9] : List Nat).take 3)
          (([4, 5, 3] : List Nat).take 3) ∧
        ∀ i, i < 3 → chunks.flatten.getD i 0 =
          ((([1, 2, 255, 9] : List Nat).getD i 0) + (([4, 5, 3] : List Nat).getD i 0)) % 256 :=
  ⟨by decide, by decide,
    addPhase_bytewise 2 (by decide) 3 [1, 2, 255, 9] [4, 5, 3] (by decide) (by decide)⟩

/-- Counterexample to C5 as stated: with a pending chunk holding 3
remaining bytes, a single 5-byte request returns just those 3 bytes and
leaves the upstream untouched — it does *not* pull the fresh chunk `[4, 5]`
and continue filling the destination.  The repetition the claim describes
lives in the separate `read` helper, not in `emulateBYOB`. -/
theorem emulateBYOB_single_pull_cex :
    emulateRead ⟨[[4, 5]], some [1, 2, 3], 0⟩ 5 =
        (some [1, 2, 3], ⟨[[4, 5]], some [1, 2, 3], 3⟩) ∧
      (emulateRead ⟨[[4, 5]], some [1, 2, 3], 0⟩ 5).1 ≠ some [1, 2, 3, 4, 5] := by
  constructor
  · rfl
  · decide

/-- C5 amended (corrected).  A single `emulateBYOB` read for `K` bytes
performs *at most one* upstream pull: if the pending chunk still has
unread bytes it copies `min(K, remaining)` of them without touching the
upstream; if the pending chunk is absent or exhausted it pulls exactly one
fresh chunk and copies `min(K, chunk length)` from it.  It may therefore
return fewer than `K` bytes while more data is available (the caller-side
`read` helper loops to fill a destination).  It reports completion only
when the upstream reports completion, and then with zero bytes produced. -/
theorem emulateBYOB_read_spec (s : EmuState) (destLen : Nat) :
    ((emulateRead s destLen).1 = none →
        s.chunks = [] ∧ (s.buffer = none ∨ (s.buffer.getD []).length = s.offset)) ∧
    s.chunks.length - 1 ≤ (emulateRead s destLen).2.chunks.length ∧
    (∀ b, s.buffer = some b → s.offset < b.length →
        emulateRead s destLen =
          (some ((b.drop s.offset).take (min destLen (b.length - s.offset))),
            ⟨s.chunks, some b, s.offset + min destLen (b.length - s.offset)⟩)) ∧
    (∀ chunk rest, s.chunks = chunk :: rest →
        s.buffer = none ∨ (s.buffer.getD []).length = s.offset →
        emulateRead s destLen =
          (some (chunk.take (min destLen chunk.length)),
            ⟨rest, some chunk, min destLen chunk.length⟩)) := by
  by_cases hrefill : s.buffer.isNone ∨ (s.buffer.getD []).length = s.offset
  · cases hc : s.chunks with
    | nil =>
      have he : emulateRead s destLen = (none, { s with buffer := none }) := by
        rw [emulateRead, if_pos hrefill, hc]
      refine ⟨fun _ => ⟨rfl, ?_⟩, ?_, ?_, ?_⟩
      · rcases hrefill with h | h
        · exact Or.inl (Option.isNone_iff_eq_none.mp h)
        · exact Or.inr h
      · rw [he]
        simp [hc]
      · intro b hb hlt
        rcases hrefill with h | h
        · rw [hb] at h
          simp at h
        · rw [hb] at h
          simp at h
          omega
      · intro chunk rest hcr
        exact absurd hcr (by simp)
    | cons chunk rest =>
      have he : emulateRead s destLen =
          (some (chunk.take (min destLen chunk.length)),
            ⟨rest, some chunk, min destLen chunk.length⟩) := by
        rw [emulateRead, if_pos hrefill, hc]
        simp
      refine ⟨?_, ?_, ?_, ?_⟩
      · rw [he]
        simp
      · rw [he]
        simp
      · intro b hb hlt
        rcases hrefill with h | h
        · rw [hb] at h
          simp at h
        · rw [hb] at h
          simp at h
          omega
      · intro chunk2 rest2 hcr hok
        injection hcr with h1 h2
        subst h1 h2
        exact he
  · have hb' : ∃ b, s.buffer = some b := by
      rcases hs : s.buffer with _ | b
      · rw [hs] at hrefill
        simp at hrefill
      · exact ⟨b, rfl⟩
    obtain ⟨b, hb⟩ := hb'
    have hne : ¬(b.length = s.offset) := by
      intro hcontra
      exact hrefill (Or.inr (by rw [hb]; simpa using hcontra))
    have he : emulateRead s destLen =
        (some ((b.drop s.offset).take (min destLen (b.length - s.offset))),
          ⟨s.chunks, some b, s.offset + min destLen (b.length - s.offset)⟩) := by
      rw [emulateRead, if_neg hrefill]
      simp only [hb]
      have : s = ⟨s.chunks, s.buffer, s.offset⟩ := rfl
      rw [this]
      simp [hb]
    refine ⟨?_, ?_, ?_, ?_⟩
    · rw [he]
      simp
    · rw [he]
      simp
    · intro b2 hb2 hlt
      rw [hb] at hb2
      injection hb2 with h1
      subst h1
      exact he
    · intro chunk rest hcr hok
      rcases hok with h | h
      · rw [hb] at h
        simp at h
      · rw [hb] at h
        simp at h
        exact absurd h hne

/-- Witness for C5 (amended): both copy paths at concrete inputs — a read
served from the pending chunk without an upstream pull, and a read that
pulls exactly one fresh chunk. -/
theorem emulateBYOB_read_spec_witness :
    emulateRead ⟨[[4, 5]], some [1, 2, 3], 1⟩ 10 =
        (some [2, 3], ⟨[[4, 5]], some [1, 2, 3], 3⟩) ∧
      emulateRead ⟨[[4, 5]], some [1, 2, 3], 3⟩ 1 =
        (some [4], ⟨[], some [4, 5], 1⟩) := by
  constructor
  · have := (emulateBYOB_read_spec ⟨[[4, 5]], some [1, 2, 3], 1⟩ 10).2.2.1
      [1, 2, 3] rfl (by decide)
    simpa using this
  · have := (emulateBYOB_read_spec ⟨[[4, 5]], some [1, 2, 3], 3⟩ 1).2.2.2
      [4, 5] [] rfl (by decide)
    simpa using this

/-- Counterexample to C7 as stated: reading 32 bits from the byte
stream `80 00 00 00` must, per the claim, return the next 32 bits
assembled MSB-first, i.e. `2^31`; the implementation accumulates through
JavaScript int32 shifts and ors, so it returns `-2^31` instead. -/
theorem readBits_32_sign_cex :
    (readBits ⟨[some 0x80, some 0, some 0, some 0], 0, none⟩ 32).1 = -(2 ^ 31) ∧
      (readBits ⟨[some 0x80, some 0, some 0, some 0], 0, none⟩ 32).1 ≠ 2 ^ 31 := by
  have h := readBitsAux_spec 32 ⟨[some 0x80, some 0, some 0, some 0], 0, none⟩
    [0x80, 0, 0, 0] 0 rfl (by decide) (by decide) (by decide) (by decide)
  rw [ReadBitsSpec] at h
  obtain ⟨bytes2, _, _, _, _, h5⟩ := h
  rw [readBits, h5]
  constructor
  · decide
  · decide

/-- C7 amended (corrected).  For `1 ≤ n ≤ 32`, with the upstream
producing plain bytes and at least `n` bits available, `readBits(n)`
returns the next `n` bits of the stream assembled most-significant-bit
first *reduced to a signed 32-bit value* (`toInt32`; exact and nonnegative
whenever the assembled value is below `2^31`, which covers every `n ≤ 31`),
consuming exactly those `n` bits: the final state again streams plain
bytes, buffers at most the one partially-read byte, and holds exactly the
bits after the first `n`.  On exhaustion it returns `-1` instead of
throwing (see `readBits_exhaustion_sentinel`). -/
theorem readBits_int32_value (st : BitState) (bytes : List Nat) (n : Nat)
    (hstream : st.stream = bytes.map some) (hbytes : ∀ b ∈ bytes, b < 256)
    (hbuf : st.buffer < 256) (h1 : 1 ≤ n) (h2 : n ≤ 32)
    (henough : n ≤ (availBitsFrom st bytes).length) :
    (readBits st n).1 = toInt32 (bitsVal ((availBitsFrom st bytes).take n)) ∧
    ∃ bytes2 : List Nat, (readBits st n).2.stream = bytes2.map some ∧
      availBitsFrom (readBits st n).2 bytes2 = (availBitsFrom st bytes).drop n := by
  have h := readBitsAux_spec n st bytes 0 hstream hbytes hbuf (by decide) henough
  rw [ReadBitsSpec] at h
  obtain ⟨bytes2, hh1, _, _, hh4, hh5⟩ := h
  refine ⟨?_, bytes2, hh1, hh4⟩
  rw [readBits, hh5]
  norm_num

/-- Witness for C7 (amended): reading 12 bits of `AB CD` returns `0xABC`
(= `toInt32 0xABC`), leaving the low 4 bits of `CD` available. -/
theorem readBits_int32_value_witness :
    ((readBits ⟨[some 0xAB, some 0xCD], 0, none⟩ 12).1 =
        toInt32 (bitsVal ((availBitsFrom ⟨[some 0xAB, some 0xCD], 0, none⟩
          [0xAB, 0xCD]).take 12)) ∧
      ∃ bytes2 : List Nat,
        (readBits ⟨[some 0xAB, some 0xCD], 0, none⟩ 12).2.stream = bytes2.map some ∧
        availBitsFrom (readBits ⟨[some 0xAB, some 0xCD], 0, none⟩ 12).2 bytes2 =
          (availBitsFrom ⟨[some 0xAB, some 0xCD], 0, none⟩ [0xAB, 0xCD]).drop 12) ∧
    toInt32 (bitsVal ((availBitsFrom ⟨[some 0xAB, some 0xCD], 0, none⟩
      [0xAB, 0xCD]).take 12)) = 0xABC :=
  ⟨readBits_int32_value ⟨[some 0xAB, some 0xCD], 0, none⟩ [0xAB, 0xCD] 12 rfl
      (by decide) (by decide) (by decide) (by decide) (by decide),
    by decide⟩

/-- C10 (confirmed).  `readBits` treats a successful zero-byte upstream
read (a `none` entry) exactly like end-of-stream: if the bits available
before the blockage run out mid-read, it returns the sentinel `-1` — in
both cases alike — discarding whatever bits it had already accumulated, so
no partial value escapes. -/
theorem readBits_exhaustion_sentinel (st : BitState) (n : Nat) (bytes : List Nat)
    (rest : List (Option Nat))
    (hs : st.stream = bytes.map some ++ none :: rest ∨ st.stream = bytes.map some)
    (hshort : (availBitsFrom st bytes).length < n) :
    (readBits st n).1 = -1 := by
  rw [readBits]
  exact readBitsAux_exhaust n st bytes rest 0 hs hshort

/-- Witness for C10: a 12-bit read against a stream whose second upstream
read produces zero bytes (`none`) returns `-1`, although 8 bits were
available and accumulated first. -/
theorem readBits_exhaustion_sentinel_witness :
    (readBits ⟨[some 5, none, some 7], 0, none⟩ 12).1 = -1 :=
  readBits_exhaustion_sentinel ⟨[some 5, none, some 7], 0, none⟩ 12 [5] [some 7]
    (Or.inl rfl) (by decide)

/-- C4 (code bug).  A patch whose header declares a wire-negative
`controlSize` (sign bit `0x80` set, magnitude 1) is *accepted* by the
header validation: because of the `getInt64` sign slip the field decodes to
`+1`, every guard passes, and `checkHeader` succeeds instead of failing
with `'Corrupt patch'`.  The spec decoding of the same field is `-1 < 0`. -/
theorem checkHeader_wire_negative_accepted :
    checkHeader headerWireNegative =
      .ok ({ magic := MAGIC, controlSize := 1, diffSize := 0, newSize := 0 }, []) ∧
    getInt64Spec headerWireNegative 8 = -1 := by
  constructor
  · rfl
  · decide

end Bspatch
